import Mathlib

/-!
Shallow embedding of the `goit-algo2-hw-04` repository.

Two source files are embedded:
* `src/trie_homework_task1.py` — namespace `Task1`: a trie with `put`, `get`,
  `delete` (with upward pruning) and the `Homework` subclass's `has_prefix`.
* `src/longest_common_word.py` — namespace `LCW`: a pass-count-augmented trie
  with `_insert_with_passcount` and `find_longest_common_word`.

Python dictionaries mapping characters to child nodes are embedded as
association lists `List (Char × node)` with Python `dict` semantics:
assignment replaces the first matching key in place or appends a fresh key at
the end, `del` removes the key, lookup finds the first match.  Python values
(which may be `None`, strings, ints, bools or lists) are embedded as the
inductive type `PyVal`; the `None` sentinel used by the code for "no value" is
`PyVal.vnone`.  A Python `TypeError` is embedded as `Except.error ()`.
-/

set_option autoImplicit false

namespace HW04

/-- Python values, as far as this repository manipulates them: `None`,
strings (as lists of characters), integers, booleans and lists. -/
inductive PyVal : Type where
  | vnone : PyVal
  | vstr : List Char → PyVal
  | vint : Int → PyVal
  | vbool : Bool → PyVal
  | vlist : List PyVal → PyVal

/-- The Python `x is None` test. -/
def PyVal.isNone : PyVal → Bool
  | .vnone => true
  | _ => false

/-- Lookup in a Python dict embedded as an association list
(`d[k]` / `k in d`): first entry with the given key. -/
def alookup {β : Type} : List (Char × β) → Char → Option β
  | [], _ => none
  | (c', b) :: r, c => if c' = c then some b else alookup r c

/-- Assignment `d[k] = v` on a Python dict embedded as an association list:
replace the first entry with the given key, or append a new entry. -/
def aset {β : Type} : List (Char × β) → Char → β → List (Char × β)
  | [], c, b => [(c, b)]
  | (c', b') :: r, c, b => if c' = c then (c, b) :: r else (c', b') :: aset r c b

/-- Deletion `del d[k]` on a Python dict embedded as an association list:
remove the first entry with the given key. -/
def adel {β : Type} : List (Char × β) → Char → List (Char × β)
  | [], _ => []
  | (c', b') :: r, c => if c' = c then r else (c', b') :: adel r c

namespace Task1

/-- `TrieNode` of `src/trie_homework_task1.py`: a children dict and a value
(`None` when no value is stored at this node). -/
inductive TrieNode : Type where
  | mk : List (Char × TrieNode) → PyVal → TrieNode

/-- The `children` attribute. -/
def TrieNode.children : TrieNode → List (Char × TrieNode)
  | .mk ch _ => ch

/-- The `value` attribute. -/
def TrieNode.value : TrieNode → PyVal
  | .mk _ v => v

/-- The body of `Trie.put` after validation: walk `key` creating missing
children, then set the value at the final node.  Returns the new subtree and
whether `size` must be incremented (the final node's previous value was
`None`). -/
def putNode : TrieNode → List Char → PyVal → TrieNode × Bool
  | .mk ch v, [], value => (.mk ch value, v.isNone)
  | .mk ch v, c :: rest, value =>
    let child := match alookup ch c with
      | some child => child
      | none => .mk [] .vnone
    let r := putNode child rest value
    (.mk (aset ch c r.1) v, r.2)

/-- The body of `Trie.get` after validation: walk `key`; `None` if an edge is
missing, else the final node's value. -/
def getNode : TrieNode → List Char → PyVal
  | .mk _ v, [] => v
  | .mk ch _, c :: rest =>
    match alookup ch c with
    | some child => getNode child rest
    | none => .vnone

/-- The recursive `_delete(node, key, depth)` helper of `Trie.delete`.
Returns `(new node, should_delete as reported to the caller, whether a value
was removed — i.e. whether `self.size` was decremented)`. -/
def deleteNode : TrieNode → List Char → TrieNode × Bool × Bool
  | .mk ch v, [] =>
    if v.isNone then (.mk ch v, false, false)
    else (.mk ch .vnone, ch.isEmpty, true)
  | .mk ch v, c :: rest =>
    match alookup ch c with
    | none => (.mk ch v, false, false)
    | some child =>
      let r := deleteNode child rest
      if r.2.1 then
        let ch' := adel ch c
        (.mk ch' v, ch'.isEmpty && v.isNone, r.2.2)
      else
        (.mk (aset ch c r.1) v, false, r.2.2)

/-- The `Trie` class: a root node and a key count. -/
structure Trie : Type where
  root : TrieNode
  size : Int

/-- `Trie.__init__`: empty root node, size zero. -/
def Trie.empty : Trie := ⟨.mk [] .vnone, 0⟩

/-- `Trie.put(key, value)`: `TypeError` when `key` is not a non-empty string,
else insert and bump `size` when the terminal node had no value. -/
def Trie.put (t : Trie) (key : PyVal) (value : PyVal) : Except Unit Trie :=
  match key with
  | .vstr s =>
    if s = [] then .error () else
    let r := putNode t.root s value
    .ok ⟨r.1, t.size + (if r.2 then 1 else 0)⟩
  | _ => .error ()

/-- `Trie.get(key)`: `TypeError` when `key` is not a non-empty string, else
the stored value (`None` when absent). -/
def Trie.get (t : Trie) (key : PyVal) : Except Unit PyVal :=
  match key with
  | .vstr s =>
    if s = [] then .error () else .ok (getNode t.root s)
  | _ => .error ()

/-- `Trie.delete(key)`: `TypeError` when `key` is not a non-empty string, else
run `_delete` from the root; the boolean the method returns is `_delete`'s
value at the root. -/
def Trie.delete (t : Trie) (key : PyVal) : Except Unit (Trie × Bool) :=
  match key with
  | .vstr s =>
    if s = [] then .error () else
    let r := deleteNode t.root s
    .ok (⟨r.1, t.size - (if r.2.2 then 1 else 0)⟩, r.2.1)
  | _ => .error ()

/-- The walk inside `Homework.has_prefix`: follow the characters from the
root, `False` at the first missing edge, `True` when all edges exist. -/
def hasPrefixNode : TrieNode → List Char → Bool
  | _, [] => true
  | .mk ch _, c :: rest =>
    match alookup ch c with
    | some child => hasPrefixNode child rest
    | none => false

/-- `Homework.has_prefix(prefix)`: `TypeError` when the argument is not a
string, else the walk from the root. -/
def Homework.has_prefix (t : Trie) (p : PyVal) : Except Unit Bool :=
  match p with
  | .vstr s => .ok (hasPrefixNode t.root s)
  | _ => .error ()

/-- Spec-side notion of "the full path spelled by a string exists from this
node": the node reached by following the characters, when every edge exists. -/
def nodeAt : TrieNode → List Char → Option TrieNode
  | n, [] => some n
  | .mk ch _, c :: rest =>
    match alookup ch c with
    | some child => nodeAt child rest
    | none => none

mutual

/-- Number of nodes reachable from this node (itself included) whose value is
non-absent — the quantity the spec's `size` invariant speaks about. -/
def countT : TrieNode → Nat
  | .mk ch v => (if v.isNone then 0 else 1) + countL ch

/-- Sum of `countT` over the children of an association list. -/
def countL : List (Char × TrieNode) → Nat
  | [] => 0
  | (_, n) :: r => countT n + countL r

end

/-- A node is a dead end when it has zero children and an absent value; the
glossary's notion, eligible for pruning. -/
def notDead (n : TrieNode) : Bool := !n.children.isEmpty || !n.value.isNone

mutual

/-- No node strictly below this one is a dead end (zero children and absent
value) — the pruning invariant the spec states after `delete`.  The node
itself (in particular the root) is exempt. -/
def cleanB : TrieNode → Bool
  | .mk ch _ => cleanL ch

/-- Every node of the association list is a non-dead-end and recursively
clean. -/
def cleanL : List (Char × TrieNode) → Bool
  | [] => true
  | (_, n) :: r => notDead n && cleanB n && cleanL r

end

/-- A mutating operation on the Task-1 trie: a `put` or a `delete` call. -/
inductive Op : Type where
  | put : PyVal → PyVal → Op
  | del : PyVal → Op

/-- Apply one operation; a `TypeError` leaves the trie unchanged (the checks
run before any mutation), and `delete`'s boolean result is discarded. -/
def applyOp (t : Trie) (op : Op) : Trie :=
  match op with
  | .put k v =>
    match t.put k v with
    | .ok t' => t'
    | .error _ => t
  | .del k =>
    match t.delete k with
    | .ok p => p.1
    | .error _ => t

/-- Run a sequence of operations from a starting state. -/
def runOps (t : Trie) (ops : List Op) : Trie := ops.foldl applyOp t

/-- An operation whose stored value is non-absent (`delete`s always qualify):
the restriction under which the spec's occupancy and pruning invariants
actually hold. -/
def goodOp : Op → Bool
  | .put _ v => !v.isNone
  | .del _ => true

end Task1

namespace LCW

/-- `TrieNode` of `src/longest_common_word.py`: children dict, value, and the
`pass_count` of insertions whose path visited this node. -/
inductive TrieNode : Type where
  | mk : List (Char × TrieNode) → PyVal → Nat → TrieNode

/-- The `children` attribute. -/
def TrieNode.children : TrieNode → List (Char × TrieNode)
  | .mk ch _ _ => ch

/-- The `value` attribute. -/
def TrieNode.value : TrieNode → PyVal
  | .mk _ v _ => v

/-- The `pass_count` attribute. -/
def TrieNode.passCount : TrieNode → Nat
  | .mk _ _ p => p

/-- `node.pass_count += 1`. -/
def bumpPass : TrieNode → TrieNode
  | .mk ch v p => .mk ch v (p + 1)

/-- The character loop of `_insert_with_passcount`, started on a node whose
own `pass_count` has already been incremented: follow or create the edge for
each character and increment each visited child's `pass_count`. -/
def insertFrom : TrieNode → List Char → TrieNode
  | n, [] => n
  | .mk ch v p, c :: rest =>
    let child := match alookup ch c with
      | some child => child
      | none => .mk [] .vnone 0
    .mk (aset ch c (insertFrom (bumpPass child) rest)) v p

/-- `LongestCommonWord._insert_with_passcount(key)` acting on the root node:
increment the root's `pass_count`, then walk the key. -/
def insert_with_passcount (n : TrieNode) (key : List Char) : TrieNode :=
  insertFrom (bumpPass n) key

/-- The `while True` walk of `find_longest_common_word`: while the node has
exactly one child and that child's `pass_count` equals the number of input
strings, append the child's character and descend. -/
def walkLoop (total : Nat) : TrieNode → List Char
  | .mk [(c, child)] _ _ =>
    if child.passCount = total then c :: walkLoop total child else []
  | _ => []

/-- The `Trie` / `LongestCommonWord` instance state: root node and size. -/
structure Trie : Type where
  root : TrieNode
  size : Int

/-- A freshly constructed `LongestCommonWord()`: empty root, size zero. -/
def Trie.empty : Trie := ⟨.mk [] .vnone 0, 0⟩

/-- The `isinstance(s, str)` test of the validation loop. -/
def asStr : PyVal → Option (List Char)
  | .vstr s => some s
  | _ => none

/-- The element-wise validation loop: `some` of the character lists when all
elements are strings, `none` as soon as one is not. -/
def allStrings : List PyVal → Option (List (List Char))
  | [] => some []
  | x :: r =>
    match asStr x, allStrings r with
    | some s, some ss => some (s :: ss)
    | _, _ => none

/-- `LongestCommonWord.find_longest_common_word(strings)`: validate the
input (non-list, empty list, or a non-string element all yield `""` with the
instance untouched), insert every string into the instance's existing trie
with pass counts, then run the unique-child walk with
`total_strings = len(strings)`.  Returns the prefix and the mutated
instance. -/
def find_longest_common_word (t : Trie) (strings : PyVal) : List Char × Trie :=
  match strings with
  | .vlist l =>
    if l.isEmpty then ([], t) else
    match allStrings l with
    | none => ([], t)
    | some ss =>
      let root' := ss.foldl insert_with_passcount t.root
      (walkLoop ss.length root', ⟨root', t.size⟩)
  | _ => ([], t)

mutual

/-- Number of nodes in a subtree — a termination measure for the walk. -/
def nsize : TrieNode → Nat
  | .mk ch _ _ => 1 + lsize ch

/-- Total number of nodes below an association list. -/
def lsize : List (Char × TrieNode) → Nat
  | [] => 0
  | (_, n) :: r => nsize n + lsize r

end

/-- Fuel-indexed version of `walkLoop`, used only to evaluate the
well-founded `walkLoop` on concrete tries (they agree once the fuel reaches
the subtree's node count). -/
def walkFuel : Nat → Nat → TrieNode → List Char
  | 0, _, _ => []
  | k + 1, total, .mk [(c, child)] _ _ =>
    if child.passCount = total then c :: walkFuel k total child else []
  | _ + 1, _, _ => []

/-- The tails of the strings of `L` that start with the character `c`: what
an insertion into the child at `c` still has to process. -/
def stringsWithHead (L : List (List Char)) (c : Char) : List (List Char) :=
  L.filterMap fun s =>
    match s with
    | [] => none
    | c' :: r => if c' = c then some r else none

/-- The node faithfully represents a multiset of inserted strings: its
`pass_count` is their number, its children keys are exactly the first
characters occurring in them (without duplicates), and each child represents
the corresponding tails.  The trie grown by `_insert_with_passcount` from a
fresh root satisfies this. -/
inductive Represents : TrieNode → List (List Char) → Prop where
  | intro (ch : List (Char × TrieNode)) (v : PyVal) (p : Nat) (L : List (List Char))
      (hp : p = L.length)
      (hnd : (ch.map Prod.fst).Nodup)
      (hkeys : ∀ c : Char, (alookup ch c).isSome ↔ ∃ s ∈ L, ∃ r, s = c :: r)
      (hchild : ∀ c n, alookup ch c = some n → Represents n (stringsWithHead L c)) :
      Represents (.mk ch v p) L

end LCW

/-! ## Lemmas about the embedded Python dict operations -/

theorem alookup_aset_self {β : Type} (l : List (Char × β)) (c : Char) (b : β) :
    alookup (aset l c b) c = some b := by
  induction l with
  | nil => simp [aset, alookup]
  | cons p r ih =>
    obtain ⟨c', b'⟩ := p
    by_cases h : c' = c <;> simp [aset, alookup, h, ih]

theorem alookup_aset_ne {β : Type} (l : List (Char × β)) (c d : Char) (b : β)
    (hne : d ≠ c) : alookup (aset l c b) d = alookup l d := by
  induction l with
  | nil => simp [aset, alookup, Ne.symm hne]
  | cons p r ih =>
    obtain ⟨c', b'⟩ := p
    by_cases h : c' = c
    · subst h
      simp [aset, alookup, Ne.symm hne]
    · simp only [aset, if_neg h]
      by_cases h' : c' = d <;> simp [alookup, h', ih]

theorem mem_aset {β : Type} (l : List (Char × β)) (c : Char) (b : β) (p : Char × β)
    (hp : p ∈ aset l c b) : p = (c, b) ∨ p ∈ l := by
  induction l with
  | nil =>
    simp only [aset, List.mem_singleton] at hp
    exact Or.inl hp
  | cons q r ih =>
    obtain ⟨c', b'⟩ := q
    by_cases h : c' = c
    · simp only [aset, if_pos h, List.mem_cons] at hp
      rcases hp with hp | hp
      · exact Or.inl hp
      · exact Or.inr (List.mem_cons_of_mem _ hp)
    · simp only [aset, if_neg h, List.mem_cons] at hp
      rcases hp with hp | hp
      · exact Or.inr (by simp [hp])
      · rcases ih hp with hp' | hp'
        · exact Or.inl hp'
        · exact Or.inr (List.mem_cons_of_mem _ hp')

theorem aset_ne_nil {β : Type} (l : List (Char × β)) (c : Char) (b : β) :
    aset l c b ≠ [] := by
  cases l with
  | nil => simp [aset]
  | cons q r =>
    obtain ⟨c', b'⟩ := q
    by_cases h : c' = c <;> simp [aset, h]

theorem alookup_mem {β : Type} (l : List (Char × β)) (c : Char) (b : β)
    (h : alookup l c = some b) : (c, b) ∈ l := by
  induction l with
  | nil => simp [alookup] at h
  | cons q r ih =>
    obtain ⟨c', b'⟩ := q
    by_cases hc : c' = c
    · subst hc
      simp [alookup] at h
      simp [h]
    · simp [alookup, hc] at h
      simp [ih h]

theorem aset_self_of_alookup {β : Type} (l : List (Char × β)) (c : Char) (b : β)
    (h : alookup l c = some b) : aset l c b = l := by
  induction l with
  | nil => simp [alookup] at h
  | cons q r ih =>
    obtain ⟨c', b'⟩ := q
    by_cases hc : c' = c
    · subst hc
      simp [alookup] at h
      simp [aset, h]
    · simp [alookup, hc] at h
      simp [aset, hc, ih h]

theorem mem_adel {β : Type} (l : List (Char × β)) (c : Char) (p : Char × β)
    (hp : p ∈ adel l c) : p ∈ l := by
  induction l with
  | nil => simp [adel] at hp
  | cons q r ih =>
    obtain ⟨c', b'⟩ := q
    by_cases h : c' = c
    · simp only [adel, if_pos h] at hp
      exact List.mem_cons_of_mem _ hp
    · simp only [adel, if_neg h, List.mem_cons] at hp
      rcases hp with hp | hp
      · simp [hp]
      · exact List.mem_cons_of_mem _ (ih hp)

/-! ## Lemmas about the Task-1 trie -/

namespace Task1

theorem getNode_empty (k : List Char) : getNode (.mk [] .vnone) k = .vnone := by
  cases k <;> simp [getNode, alookup]

theorem getNode_putNode (k : List Char) : ∀ (n : TrieNode) (v : PyVal),
    getNode (putNode n k v).1 k = v := by
  induction k with
  | nil =>
    intro n v
    cases n
    simp [putNode, getNode]
  | cons c rest ih =>
    intro n v
    cases n with
    | mk ch v0 =>
      cases h : alookup ch c with
      | some child =>
        simp only [putNode, h, getNode, alookup_aset_self]
        exact ih _ v
      | none =>
        simp only [putNode, h, getNode, alookup_aset_self]
        exact ih _ v

theorem putNode_snd (k : List Char) : ∀ (n : TrieNode) (v : PyVal),
    (putNode n k v).2 = (getNode n k).isNone := by
  induction k with
  | nil =>
    intro n v
    cases n
    simp [putNode, getNode]
  | cons c rest ih =>
    intro n v
    cases n with
    | mk ch v0 =>
      cases h : alookup ch c with
      | some child =>
        simp only [putNode, h, getNode]
        exact ih _ v
      | none =>
        simp only [putNode, h, getNode]
        rw [ih _ v, getNode_empty]

theorem countT_dead (n : TrieNode) (h1 : n.children.isEmpty = true)
    (h2 : n.value.isNone = true) : countT n = 0 := by
  cases n with
  | mk ch v =>
    simp only [TrieNode.children, List.isEmpty_iff] at h1
    subst h1
    simp only [TrieNode.value] at h2
    simp [countT, countL, h2]

theorem countL_aset_some (l : List (Char × TrieNode)) (c : Char)
    (old nw : TrieNode) (h : alookup l c = some old) :
    countL (aset l c nw) + countT old = countL l + countT nw := by
  induction l with
  | nil => simp [alookup] at h
  | cons q r ih =>
    obtain ⟨c', b'⟩ := q
    by_cases hc : c' = c
    · subst hc
      simp only [alookup, if_pos] at h
      injection h with h
      subst h
      simp only [aset, if_pos, countL]
      omega
    · simp only [alookup, if_neg hc] at h
      simp only [aset, if_neg hc, countL]
      have := ih h
      omega

theorem countL_aset_none (l : List (Char × TrieNode)) (c : Char)
    (nw : TrieNode) (h : alookup l c = none) :
    countL (aset l c nw) = countL l + countT nw := by
  induction l with
  | nil =>
    simp only [aset, countL]
    omega
  | cons q r ih =>
    obtain ⟨c', b'⟩ := q
    by_cases hc : c' = c
    · simp [alookup, hc] at h
    · simp only [alookup, if_neg hc] at h
      simp only [aset, if_neg hc, countL]
      have := ih h
      omega

theorem countL_adel (l : List (Char × TrieNode)) (c : Char)
    (old : TrieNode) (h : alookup l c = some old) :
    countL (adel l c) + countT old = countL l := by
  induction l with
  | nil => simp [alookup] at h
  | cons q r ih =>
    obtain ⟨c', b'⟩ := q
    by_cases hc : c' = c
    · subst hc
      simp only [alookup, if_pos] at h
      injection h with h
      subst h
      simp only [adel, if_pos, countL]
      omega
    · simp only [alookup, if_neg hc] at h
      simp only [adel, if_neg hc, countL]
      have := ih h
      omega

theorem countT_putNode (k : List Char) : ∀ (n : TrieNode) (v : PyVal),
    v.isNone = false →
    countT (putNode n k v).1 =
      countT n + (if (putNode n k v).2 = true then 1 else 0) := by
  induction k with
  | nil =>
    intro n v hv
    cases n with
    | mk ch v0 =>
      simp only [putNode, countT, hv]
      by_cases h0 : v0.isNone = true <;> simp [h0] <;> omega
  | cons c rest ih =>
    intro n v hv
    cases n with
    | mk ch v0 =>
      cases h : alookup ch c with
      | some child =>
        simp only [putNode, h, countT]
        have hset := countL_aset_some ch c child (putNode child rest v).1 h
        have hrec := ih child v hv
        by_cases hb : (putNode child rest v).2 = true <;>
          simp only [hb, if_true, if_false, reduceIte] at hrec ⊢ <;> omega
      | none =>
        simp only [putNode, h, countT]
        have hset := countL_aset_none ch c (putNode (.mk [] .vnone) rest v).1 h
        have hrec := ih (.mk [] .vnone) v hv
        have hz : countT (TrieNode.mk [] .vnone) = 0 := by
          simp [countT, countL, PyVal.isNone]
        by_cases hb : (putNode (.mk [] .vnone) rest v).2 = true <;>
          simp only [hb, if_true, if_false, reduceIte] at hrec ⊢ <;> omega

theorem aset_isEmpty (l : List (Char × TrieNode)) (c : Char) (b : TrieNode) :
    (aset l c b).isEmpty = false := by
  rw [List.isEmpty_eq_false]
  exact aset_ne_nil l c b

theorem vnone_isNone : PyVal.vnone.isNone = true := rfl

theorem band_elim {a b : Bool} (h : (a && b) = true) : a = true ∧ b = true :=
  (Bool.and_eq_true a b).mp h

theorem deleteNode_sd (k : List Char) : ∀ n : TrieNode,
    (deleteNode n k).2.1 =
      ((deleteNode n k).2.2 && (deleteNode n k).1.children.isEmpty &&
        (deleteNode n k).1.value.isNone) := by
  induction k with
  | nil =>
    intro n
    cases n with
    | mk ch v =>
      by_cases hv : v.isNone = true
      · simp [deleteNode, hv]
      · simp [deleteNode, hv, TrieNode.children, TrieNode.value, vnone_isNone]
  | cons c rest ih =>
    intro n
    cases n with
    | mk ch v =>
      cases h : alookup ch c with
      | none => simp [deleteNode, h]
      | some child =>
        by_cases hsd : (deleteNode child rest).2.1 = true
        · have h22 : (deleteNode child rest).2.2 = true := by
            have hx := (ih child).symm.trans hsd
            exact (band_elim (band_elim hx).1).1
          simp [deleteNode, h, hsd, h22, TrieNode.children, TrieNode.value]
        · simp only [Bool.not_eq_true] at hsd
          simp [deleteNode, h, hsd, TrieNode.children, TrieNode.value,
            aset_isEmpty]

theorem deleteNode_removed (k : List Char) : ∀ n : TrieNode,
    (deleteNode n k).2.2 = !(getNode n k).isNone := by
  induction k with
  | nil =>
    intro n
    cases n with
    | mk ch v =>
      by_cases hv : v.isNone = true <;> simp [deleteNode, getNode, hv]
  | cons c rest ih =>
    intro n
    cases n with
    | mk ch v =>
      cases h : alookup ch c with
      | none => simp [deleteNode, getNode, h, PyVal.isNone]
      | some child =>
        by_cases hsd : (deleteNode child rest).2.1 = true
        · simp [deleteNode, getNode, h, hsd, ih child]
        · simp only [Bool.not_eq_true] at hsd
          simp [deleteNode, getNode, h, hsd, ih child]

theorem deleteNode_noop (k : List Char) : ∀ n : TrieNode,
    (deleteNode n k).2.2 = false → (deleteNode n k).1 = n := by
  induction k with
  | nil =>
    intro n hrm
    cases n with
    | mk ch v =>
      by_cases hv : v.isNone = true
      · simp [deleteNode, hv]
      · simp [deleteNode, hv] at hrm
  | cons c rest ih =>
    intro n hrm
    cases n with
    | mk ch v =>
      cases h : alookup ch c with
      | none => simp [deleteNode, h]
      | some child =>
        by_cases hsd : (deleteNode child rest).2.1 = true
        · simp only [deleteNode, h, hsd, if_true] at hrm ⊢
          have h22 : (deleteNode child rest).2.2 = true := by
            have hx := (deleteNode_sd rest child).symm.trans hsd
            exact (band_elim (band_elim hx).1).1
          rw [h22] at hrm
          exact absurd hrm (by simp)
        · simp only [Bool.not_eq_true] at hsd
          simp only [deleteNode, h, hsd, Bool.false_eq_true, if_false] at hrm ⊢
          rw [ih child hrm, aset_self_of_alookup ch c child h]

theorem deleteNode_value (k : List Char) (n : TrieNode) (hk : k ≠ []) :
    (deleteNode n k).1.value = n.value := by
  cases k with
  | nil => exact absurd rfl hk
  | cons c rest =>
    cases n with
    | mk ch v =>
      cases h : alookup ch c with
      | none => simp [deleteNode, h, TrieNode.value]
      | some child =>
        by_cases hsd : (deleteNode child rest).2.1 = true
        · simp [deleteNode, h, hsd, TrieNode.value]
        · simp only [Bool.not_eq_true] at hsd
          simp [deleteNode, h, hsd, TrieNode.value]

theorem countT_deleteNode (k : List Char) : ∀ n : TrieNode,
    countT (deleteNode n k).1 +
      (if (deleteNode n k).2.2 = true then 1 else 0) = countT n := by
  induction k with
  | nil =>
    intro n
    cases n with
    | mk ch v =>
      by_cases hv : v.isNone = true <;>
        simp [deleteNode, hv, countT, vnone_isNone] <;> omega
  | cons c rest ih =>
    intro n
    cases n with
    | mk ch v =>
      cases h : alookup ch c with
      | none => simp [deleteNode, h]
      | some child =>
        by_cases hsd : (deleteNode child rest).2.1 = true
        · have hdead : countT (deleteNode child rest).1 = 0 := by
            have hx := (deleteNode_sd rest child).symm.trans hsd
            exact countT_dead _ (band_elim (band_elim hx).1).2 (band_elim hx).2
          have h22 : (deleteNode child rest).2.2 = true := by
            have hx := (deleteNode_sd rest child).symm.trans hsd
            exact (band_elim (band_elim hx).1).1
          have hrec := ih child
          rw [h22] at hrec
          simp only [if_true, reduceIte] at hrec
          have hdel := countL_adel ch c child h
          simp only [deleteNode, h, hsd, if_true, h22, countT, reduceIte]
          omega
        · simp only [Bool.not_eq_true] at hsd
          have hrec := ih child
          have hset := countL_aset_some ch c child (deleteNode child rest).1 h
          simp only [deleteNode, h, hsd, Bool.false_eq_true, if_false, countT]
          by_cases h22 : (deleteNode child rest).2.2 = true <;>
            simp only [h22, if_true, if_false, Bool.false_eq_true, reduceIte]
              at hrec ⊢ <;> omega

theorem cleanL_iff (l : List (Char × TrieNode)) :
    cleanL l = true ↔ ∀ p ∈ l, notDead p.2 = true ∧ cleanB p.2 = true := by
  induction l with
  | nil => simp [cleanL]
  | cons q r ih =>
    obtain ⟨c, n⟩ := q
    constructor
    · intro h p hp
      simp only [cleanL, Bool.and_eq_true] at h
      rcases List.mem_cons.mp hp with hp | hp
      · subst hp
        exact ⟨h.1.1, h.1.2⟩
      · exact (ih.mp h.2) p hp
    · intro h
      simp only [cleanL, Bool.and_eq_true]
      refine ⟨⟨(h (c, n) (by simp)).1, (h (c, n) (by simp)).2⟩, ?_⟩
      exact ih.mpr fun p hp => h p (List.mem_cons_of_mem _ hp)

theorem cleanB_mk (ch : List (Char × TrieNode)) (v : PyVal) :
    cleanB (.mk ch v) = cleanL ch := by
  simp [cleanB]

theorem putNode_clean (k : List Char) : ∀ (n : TrieNode) (v : PyVal),
    v.isNone = false → cleanB n = true →
    cleanB (putNode n k v).1 = true ∧ notDead (putNode n k v).1 = true := by
  induction k with
  | nil =>
    intro n v hv hc
    cases n with
    | mk ch v0 =>
      rw [cleanB_mk] at hc
      simp only [putNode]
      constructor
      · rw [cleanB_mk]
        exact hc
      · simp [notDead, TrieNode.value, hv]
  | cons c rest ih =>
    intro n v hv hc
    cases n with
    | mk ch v0 =>
      rw [cleanB_mk] at hc
      have hchild : ∀ child, alookup ch c = some child → cleanB child = true :=
        fun child h => ((cleanL_iff ch).mp hc (c, child) (alookup_mem ch c child h)).2
      cases h : alookup ch c with
      | some child =>
        have hrec := ih child v hv (hchild child h)
        simp only [putNode, h]
        constructor
        · rw [cleanB_mk, cleanL_iff]
          intro p hp
          rcases mem_aset ch c _ p hp with hp' | hp'
          · subst hp'
            exact ⟨hrec.2, hrec.1⟩
          · exact (cleanL_iff ch).mp hc p hp'
        · simp [notDead, TrieNode.children, aset_isEmpty]
      | none =>
        have hfresh : cleanB (TrieNode.mk [] .vnone) = true := by
          simp [cleanB_mk, cleanL]
        have hrec := ih (.mk [] .vnone) v hv hfresh
        simp only [putNode, h]
        constructor
        · rw [cleanB_mk, cleanL_iff]
          intro p hp
          rcases mem_aset ch c _ p hp with hp' | hp'
          · subst hp'
            exact ⟨hrec.2, hrec.1⟩
          · exact (cleanL_iff ch).mp hc p hp'
        · simp [notDead, TrieNode.children, aset_isEmpty]

theorem deleteNode_clean (k : List Char) : ∀ n : TrieNode,
    cleanB n = true → cleanB (deleteNode n k).1 = true := by
  induction k with
  | nil =>
    intro n hc
    cases n with
    | mk ch v =>
      by_cases hv : v.isNone = true <;>
        simp only [deleteNode, hv, if_true, if_false, Bool.false_eq_true,
          reduceIte] <;> rw [cleanB_mk] at hc ⊢ <;> exact hc
  | cons c rest ih =>
    intro n hc
    cases n with
    | mk ch v =>
      rw [cleanB_mk] at hc
      cases h : alookup ch c with
      | none =>
        simp only [deleteNode, h]
        rw [cleanB_mk]
        exact hc
      | some child =>
        have hchild : cleanB child = true :=
          ((cleanL_iff ch).mp hc (c, child) (alookup_mem ch c child h)).2
        have hnd : notDead child = true :=
          ((cleanL_iff ch).mp hc (c, child) (alookup_mem ch c child h)).1
        have hrec := ih child hchild
        by_cases hsd : (deleteNode child rest).2.1 = true
        · simp only [deleteNode, h, hsd, if_true]
          rw [cleanB_mk, cleanL_iff]
          intro p hp
          exact (cleanL_iff ch).mp hc p (mem_adel ch c p hp)
        · simp only [Bool.not_eq_true] at hsd
          simp only [deleteNode, h, hsd, Bool.false_eq_true, if_false]
          rw [cleanB_mk, cleanL_iff]
          intro p hp
          rcases mem_aset ch c _ p hp with hp' | hp'
          · subst hp'
            refine ⟨?_, hrec⟩
            by_cases h22 : (deleteNode child rest).2.2 = true
            · have hsd' := deleteNode_sd rest child
              rw [hsd, h22] at hsd'
              simp only [Bool.true_and] at hsd'
              rcases Bool.and_eq_false_iff.mp hsd'.symm with hx | hx
              · simp [notDead, hx]
              · simp [notDead, hx]
            · simp only [Bool.not_eq_true] at h22
              rw [deleteNode_noop rest child h22]
              exact hnd
          · exact (cleanL_iff ch).mp hc p hp'

theorem applyOp_size (t : Trie) (op : Op) (hg : goodOp op = true)
    (h : t.size = (countT t.root : Int)) :
    (applyOp t op).size = (countT (applyOp t op).root : Int) := by
  cases op with
  | put k v =>
    simp only [goodOp, Bool.not_eq_true'] at hg
    cases k with
    | vstr s =>
      by_cases hs : s = []
      · simp [applyOp, Trie.put, hs, h]
      · simp only [applyOp, Trie.put, if_neg hs]
        have hcnt := countT_putNode s t.root v hg
        by_cases hb : (putNode t.root s v).2 = true <;>
          simp only [hb, if_true, if_false, Bool.false_eq_true, reduceIte]
            at hcnt ⊢ <;> simp [hcnt, h] <;> omega
    | vnone => simp [applyOp, Trie.put, h]
    | vint m => simp [applyOp, Trie.put, h]
    | vbool b => simp [applyOp, Trie.put, h]
    | vlist l => simp [applyOp, Trie.put, h]
  | del k =>
    cases k with
    | vstr s =>
      by_cases hs : s = []
      · simp [applyOp, Trie.delete, hs, h]
      · simp only [applyOp, Trie.delete, if_neg hs]
        have hcnt := countT_deleteNode s t.root
        by_cases hb : (deleteNode t.root s).2.2 = true <;>
          simp only [hb, if_true, if_false, Bool.false_eq_true, reduceIte]
            at hcnt ⊢ <;> simp [h] <;> omega
    | vnone => simp [applyOp, Trie.delete, h]
    | vint m => simp [applyOp, Trie.delete, h]
    | vbool b => simp [applyOp, Trie.delete, h]
    | vlist l => simp [applyOp, Trie.delete, h]

theorem applyOp_clean (t : Trie) (op : Op) (hg : goodOp op = true)
    (h : cleanB t.root = true) : cleanB (applyOp t op).root = true := by
  cases op with
  | put k v =>
    simp only [goodOp, Bool.not_eq_true'] at hg
    cases k with
    | vstr s =>
      by_cases hs : s = []
      · simp [applyOp, Trie.put, hs, h]
      · simp only [applyOp, Trie.put, if_neg hs]
        exact (putNode_clean s t.root v hg h).1
    | vnone => simpa [applyOp, Trie.put] using h
    | vint m => simpa [applyOp, Trie.put] using h
    | vbool b => simpa [applyOp, Trie.put] using h
    | vlist l => simpa [applyOp, Trie.put] using h
  | del k =>
    cases k with
    | vstr s =>
      by_cases hs : s = []
      · simp [applyOp, Trie.delete, hs, h]
      · simp only [applyOp, Trie.delete, if_neg hs]
        exact deleteNode_clean s t.root h
    | vnone => simpa [applyOp, Trie.delete] using h
    | vint m => simpa [applyOp, Trie.delete] using h
    | vbool b => simpa [applyOp, Trie.delete] using h
    | vlist l => simpa [applyOp, Trie.delete] using h

theorem runOps_size (ops : List Op) : ∀ t : Trie,
    (∀ op ∈ ops, goodOp op = true) → t.size = (countT t.root : Int) →
    (runOps t ops).size = (countT (runOps t ops).root : Int) := by
  induction ops with
  | nil => intro t _ h; simpa [runOps] using h
  | cons op rest ih =>
    intro t hg h
    have h1 : runOps t (op :: rest) = runOps (applyOp t op) rest := by
      simp [runOps]
    rw [h1]
    exact ih (applyOp t op) (fun o ho => hg o (List.mem_cons_of_mem _ ho))
      (applyOp_size t op (hg op (by simp)) h)

theorem runOps_clean (ops : List Op) : ∀ t : Trie,
    (∀ op ∈ ops, goodOp op = true) → cleanB t.root = true →
    cleanB (runOps t ops).root = true := by
  induction ops with
  | nil => intro t _ h; simpa [runOps] using h
  | cons op rest ih =>
    intro t hg h
    have h1 : runOps t (op :: rest) = runOps (applyOp t op) rest := by
      simp [runOps]
    rw [h1]
    exact ih (applyOp t op) (fun o ho => hg o (List.mem_cons_of_mem _ ho))
      (applyOp_clean t op (hg op (by simp)) h)

theorem hasPrefixNode_nodeAt (s : List Char) : ∀ n : TrieNode,
    hasPrefixNode n s = (nodeAt n s).isSome := by
  induction s with
  | nil =>
    intro n
    simp [hasPrefixNode, nodeAt]
  | cons c rest ih =>
    intro n
    cases n with
    | mk ch v =>
      cases h : alookup ch c with
      | some child => simp [hasPrefixNode, nodeAt, h, ih]
      | none => simp [hasPrefixNode, nodeAt, h]

/-! ## Claims C1, C2, C3, C4, C8, C9, C10 (src/trie_homework_task1.py) -/

/-- C1, counterexample: on the trie holding keys "a" (value 1) and "b"
(value 2), `delete("a")` removes a stored non-absent value — afterwards
`get("a")` is absent and `size` drops to 1 — yet it returns `False`, because
the boolean bubbled up from `_delete` reports whether the root became empty,
not whether a value was removed. -/
theorem delete_return_counterexample :
    Trie.get (runOps Trie.empty
        [.put (.vstr ['a']) (.vint 1), .put (.vstr ['b']) (.vint 2)])
      (.vstr ['a']) = .ok (.vint 1) ∧
    (Trie.delete (runOps Trie.empty
        [.put (.vstr ['a']) (.vint 1), .put (.vstr ['b']) (.vint 2)])
      (.vstr ['a'])).map Prod.snd = .ok false ∧
    (Trie.delete (runOps Trie.empty
        [.put (.vstr ['a']) (.vint 1), .put (.vstr ['b']) (.vint 2)])
      (.vstr ['a'])).map (fun p => Trie.get p.1 (.vstr ['a'])) =
        .ok (.ok .vnone) ∧
    (Trie.delete (runOps Trie.empty
        [.put (.vstr ['a']) (.vint 1), .put (.vstr ['b']) (.vint 2)])
      (.vstr ['a'])).map (fun p => p.1.size) = .ok 1 :=
  ⟨rfl, rfl, rfl, rfl⟩

/-- C1, amended: for a non-empty string key on a trie whose root carries no
value (as all reachable tries do), `delete(key)` returns `True` exactly when
a value was actually removed at the key's terminal node AND the pruning
cascade emptied the root's children — i.e. the deletion left the trie
structurally empty; in every other case (including successful removals that
leave other keys behind) it returns `False`. -/
theorem delete_true_iff_removed_and_emptied (t : Trie) (s : List Char)
    (hs : s ≠ []) (hroot : t.root.value.isNone = true) (t' : Trie) (b : Bool)
    (hdel : Trie.delete t (.vstr s) = .ok (t', b)) :
    b = true ↔
      ((getNode t.root s).isNone = false ∧ t'.root.children = []) := by
  simp only [Trie.delete, if_neg hs, Except.ok.injEq, Prod.mk.injEq] at hdel
  obtain ⟨ht', hb⟩ := hdel
  have hroot' : t'.root = (deleteNode t.root s).1 := by rw [← ht']
  have hsd := deleteNode_sd s t.root
  have hval : (deleteNode t.root s).1.value = t.root.value :=
    deleteNode_value s t.root hs
  have hrm := deleteNode_removed s t.root
  rw [hrm, hval, hroot] at hsd
  rw [← hb, hsd, hroot']
  constructor
  · intro hx
    rcases band_elim hx with ⟨hy, _⟩
    rcases band_elim hy with ⟨h1, h2⟩
    refine ⟨by simpa using h1, by simpa using h2⟩
  · intro ⟨h1, h2⟩
    simp [h1, h2]

/-- C1, witness for the amended theorem: deleting the only key of a
single-key trie removes its value, empties the root, and returns `True`. -/
theorem delete_true_iff_witness :
    (['a'] : List Char) ≠ [] ∧
    (runOps Trie.empty [.put (.vstr ['a']) (.vint 5)]).root.value.isNone =
      true ∧
    Trie.delete (runOps Trie.empty [.put (.vstr ['a']) (.vint 5)])
      (.vstr ['a']) = .ok (⟨.mk [] .vnone, 0⟩, true) ∧
    (true = true ↔
      ((getNode (runOps Trie.empty
          [.put (.vstr ['a']) (.vint 5)]).root ['a']).isNone = false ∧
        (Trie.mk (.mk [] .vnone) 0).root.children = [])) :=
  ⟨by decide, rfl, rfl,
    delete_true_iff_removed_and_emptied
      (runOps Trie.empty [.put (.vstr ['a']) (.vint 5)]) ['a']
      (by decide) rfl ⟨.mk [] .vnone, 0⟩ true rfl⟩

/-- C2, counterexample: the single operation `put("a")` — with the default
absent value — bumps `size` to 1 while no reachable node holds a non-absent
value, so the claimed invariant fails for the default value. -/
theorem size_invariant_counterexample :
    (runOps Trie.empty [.put (.vstr ['a']) .vnone]).size ≠
      (countT (runOps Trie.empty [.put (.vstr ['a']) .vnone]).root : Int) :=
  by decide

/-- C2, amended: after every sequence of `put` and `delete` operations in
which each `put` stores a non-absent value, `size` equals the number of
nodes reachable from the root whose value is non-absent.  (A `put` of the
default `None` value increments `size` without creating such a node, which
is what breaks the unrestricted claim.) -/
theorem size_invariant_nonabsent (ops : List Op)
    (hg : ∀ op ∈ ops, goodOp op = true) :
    (runOps Trie.empty ops).size =
      (countT (runOps Trie.empty ops).root : Int) :=
  runOps_size ops Trie.empty hg (by decide)

/-- C2, witness: a put of a non-absent value followed by an unrelated and a
matching delete keeps `size` equal to the terminal-node count. -/
theorem size_invariant_nonabsent_witness :
    (∀ op ∈ [Op.put (.vstr ['a','b']) (.vint 1), Op.del (.vstr ['z']),
        Op.del (.vstr ['a','b'])], goodOp op = true) ∧
    (runOps Trie.empty [Op.put (.vstr ['a','b']) (.vint 1),
        Op.del (.vstr ['z']), Op.del (.vstr ['a','b'])]).size =
      (countT (runOps Trie.empty [Op.put (.vstr ['a','b']) (.vint 1),
        Op.del (.vstr ['z']), Op.del (.vstr ['a','b'])]).root : Int) :=
  ⟨by decide, size_invariant_nonabsent _ (by decide)⟩

/-- C3, counterexample: with the default absent value, `put("a")` twice
drives `size` from 1 to 2 — the second call increments `size` again because
the terminal node's value is still `None` after the first call. -/
theorem put_twice_counterexample :
    ((Trie.empty.put (.vstr ['a']) .vnone).bind
        (fun t => t.put (.vstr ['a']) .vnone)).map Trie.size = .ok 2 ∧
    (Trie.empty.put (.vstr ['a']) .vnone).map Trie.size = .ok 1 :=
  ⟨rfl, rfl⟩

/-- C3, amended: for every non-empty string key and every NON-absent value,
calling `put(k, v)` twice leaves `size` unchanged by the second call; the
claim fails only for the default/absent value, for which every repetition
increments `size`. -/
theorem put_twice_size_unchanged (t : Trie) (s : List Char) (v : PyVal)
    (hv : v.isNone = false) (t1 t2 : Trie)
    (h1 : Trie.put t (.vstr s) v = .ok t1)
    (h2 : Trie.put t1 (.vstr s) v = .ok t2) : t2.size = t1.size := by
  by_cases hs : s = []
  · simp [Trie.put, hs] at h1
  · simp only [Trie.put, if_neg hs, Except.ok.injEq] at h1 h2
    have hroot : t1.root = (putNode t.root s v).1 := by rw [← h1]
    have hget : getNode t1.root s = v := by
      rw [hroot]
      exact getNode_putNode s t.root v
    have hsnd := putNode_snd s t1.root v
    rw [hget, hv] at hsnd
    rw [← h2, hsnd]
    simp

/-- C3, witness: storing 7 at "a" twice leaves the trie (and its size)
exactly as after the first call. -/
theorem put_twice_size_unchanged_witness :
    (PyVal.vint 7).isNone = false ∧
    Trie.put Trie.empty (.vstr ['a']) (.vint 7) =
      .ok ⟨.mk [('a', .mk [] (.vint 7))] .vnone, 1⟩ ∧
    Trie.put ⟨.mk [('a', .mk [] (.vint 7))] .vnone, 1⟩ (.vstr ['a'])
        (.vint 7) =
      .ok ⟨.mk [('a', .mk [] (.vint 7))] .vnone, 1⟩ ∧
    (Trie.mk (.mk [('a', .mk [] (.vint 7))] .vnone) 1).size =
      (Trie.mk (.mk [('a', .mk [] (.vint 7))] .vnone) 1).size :=
  ⟨rfl, rfl, rfl,
    put_twice_size_unchanged Trie.empty ['a'] (.vint 7) rfl _ _ rfl rfl⟩

/-- C4, confirmed: immediately after `put(k, v)` on any trie, `get(k)`
returns exactly `v` — for every value, the default absent one included,
and regardless of what other keys are present in `t`. -/
theorem get_after_put (t : Trie) (s : List Char) (v : PyVal) (t' : Trie)
    (hs : s ≠ []) (h : Trie.put t (.vstr s) v = .ok t') :
    Trie.get t' (.vstr s) = .ok v := by
  simp only [Trie.put, if_neg hs, Except.ok.injEq] at h
  have hroot : t'.root = (putNode t.root s v).1 := by rw [← h]
  simp only [Trie.get, if_neg hs, hroot, getNode_putNode]

/-- C4, witness: after storing 3 at "ab" in a trie already holding "a",
`get("ab")` returns 3. -/
theorem get_after_put_witness :
    (['a','b'] : List Char) ≠ [] ∧
    Trie.put (runOps Trie.empty [.put (.vstr ['a']) (.vint 9)])
        (.vstr ['a','b']) (.vint 3) =
      .ok ⟨.mk [('a', .mk [('b', .mk [] (.vint 3))] (.vint 9))] .vnone, 2⟩ ∧
    Trie.get ⟨.mk [('a', .mk [('b', .mk [] (.vint 3))] (.vint 9))] .vnone, 2⟩
      (.vstr ['a','b']) = .ok (.vint 3) :=
  ⟨by decide, rfl,
    get_after_put (runOps Trie.empty [.put (.vstr ['a']) (.vint 9)])
      ['a','b'] (.vint 3) _ (by decide) rfl⟩

/-- C8, counterexample: after `put("ab")` with the default absent value, the
call `delete("ab")` completes (returning `False` without pruning anything),
and the node at "ab" — a non-root node with zero children and an absent
value — persists: the trie is not clean. -/
theorem dead_end_counterexample :
    (Trie.delete (runOps Trie.empty [.put (.vstr ['a','b']) .vnone])
      (.vstr ['a','b'])).map (fun p => cleanB p.1.root) = .ok false :=
  rfl

/-- C8, amended: after every sequence of `put` and `delete` operations in
which each `put` stores a non-absent value, no node other than the root has
both zero children and an absent value (dead ends are pruned transitively,
up to but not including the root); in particular this holds after every
`delete` call.  A `put` of the default absent value can create a dead end
that no later `delete` removes, which is what breaks the unrestricted
claim. -/
theorem no_dead_ends_nonabsent (ops : List Op)
    (hg : ∀ op ∈ ops, goodOp op = true) :
    cleanB (runOps Trie.empty ops).root = true :=
  runOps_clean ops Trie.empty hg (by decide)

/-- C8, witness: inserting "ab" and "ac" with values and deleting "ab"
prunes the "b" branch and leaves a clean trie. -/
theorem no_dead_ends_nonabsent_witness :
    (∀ op ∈ [Op.put (.vstr ['a','b']) (.vint 1),
        Op.put (.vstr ['a','c']) (.vint 2), Op.del (.vstr ['a','b'])],
      goodOp op = true) ∧
    cleanB (runOps Trie.empty [Op.put (.vstr ['a','b']) (.vint 1),
        Op.put (.vstr ['a','c']) (.vint 2),
        Op.del (.vstr ['a','b'])]).root = true :=
  ⟨by decide, no_dead_ends_nonabsent _ (by decide)⟩

/-- C9, confirmed: `put`, `get` and `delete` raise `TypeError` exactly when
the key is an empty string or not a string at all; the check precedes any
mutation, and a failing `put` or `delete` leaves the trie state unchanged
(in the embedding a failing operation yields no new state, and the caller's
state is intact). -/
theorem key_validation (t : Trie) (k : PyVal) (v : PyVal) :
    ((Trie.put t k v = .error ()) ↔ (∀ s : List Char, k = .vstr s → s = [])) ∧
    ((Trie.get t k = .error ()) ↔ (∀ s : List Char, k = .vstr s → s = [])) ∧
    ((Trie.delete t k = .error ()) ↔
      (∀ s : List Char, k = .vstr s → s = [])) ∧
    (Trie.put t k v = .error () → applyOp t (.put k v) = t) ∧
    (Trie.delete t k = .error () → applyOp t (.del k) = t) := by
  cases k with
  | vstr s =>
    by_cases hs : s = []
    · subst hs
      refine ⟨by simp [Trie.put], by simp [Trie.get], by simp [Trie.delete],
        ?_, ?_⟩
      · intro h
        simp [applyOp, Trie.put]
      · intro h
        simp [applyOp, Trie.delete]
    · refine ⟨?_, ?_, ?_, ?_, ?_⟩
      · simp only [Trie.put, if_neg hs]
        constructor
        · intro h
          cases h
        · intro h
          exact absurd (h s rfl) hs
      · simp only [Trie.get, if_neg hs]
        constructor
        · intro h
          cases h
        · intro h
          exact absurd (h s rfl) hs
      · simp only [Trie.delete, if_neg hs]
        constructor
        · intro h
          cases h
        · intro h
          exact absurd (h s rfl) hs
      · intro h
        simp [Trie.put, if_neg hs] at h
      · intro h
        simp [Trie.delete, if_neg hs] at h
  | vnone =>
    refine ⟨by simp [Trie.put], by simp [Trie.get], by simp [Trie.delete],
      ?_, ?_⟩
    · intro h
      simp [applyOp, Trie.put]
    · intro h
      simp [applyOp, Trie.delete]
  | vint m =>
    refine ⟨by simp [Trie.put], by simp [Trie.get], by simp [Trie.delete],
      ?_, ?_⟩
    · intro h
      simp [applyOp, Trie.put]
    · intro h
      simp [applyOp, Trie.delete]
  | vbool b =>
    refine ⟨by simp [Trie.put], by simp [Trie.get], by simp [Trie.delete],
      ?_, ?_⟩
    · intro h
      simp [applyOp, Trie.put]
    · intro h
      simp [applyOp, Trie.delete]
  | vlist l =>
    refine ⟨by simp [Trie.put], by simp [Trie.get], by simp [Trie.delete],
      ?_, ?_⟩
    · intro h
      simp [applyOp, Trie.put]
    · intro h
      simp [applyOp, Trie.delete]

/-- C9, witness: an integer key makes all three operations fail, and the
failing operations leave the state unchanged. -/
theorem key_validation_witness :
    (Trie.put Trie.empty (.vint 0) .vnone = .error ()) ∧
    (applyOp Trie.empty (.put (.vint 0) .vnone) = Trie.empty) :=
  ⟨(key_validation Trie.empty (.vint 0) .vnone).1.mpr
      (fun s h => PyVal.noConfusion h),
    (key_validation Trie.empty (.vint 0) .vnone).2.2.2.1 rfl⟩

/-- C10, confirmed: for every string `p`, `has_prefix(p)` returns `True`
exactly when the full path spelled by `p` exists from the root — whether or
not the endpoint node is terminal — and for the empty string it returns
`True` on every trie, the empty one included. -/
theorem has_prefix_path_exists (t : Trie) (s : List Char) :
    Homework.has_prefix t (.vstr s) = .ok ((nodeAt t.root s).isSome) ∧
    Homework.has_prefix t (.vstr []) = .ok true := by
  constructor
  · simp only [Homework.has_prefix, hasPrefixNode_nodeAt]
  · simp [Homework.has_prefix, hasPrefixNode]

end Task1

/-! ## Lemmas about the pass-count trie of src/longest_common_word.py -/

namespace LCW

theorem nsize_pos (n : TrieNode) : 1 ≤ nsize n := by
  cases n with
  | mk ch v p => simp [nsize]

theorem walkLoop_eq_walkFuel (k : Nat) : ∀ (total : Nat) (n : TrieNode),
    nsize n ≤ k → walkLoop total n = walkFuel k total n := by
  induction k with
  | zero =>
    intro total n h
    have := nsize_pos n
    omega
  | succ k ih =>
    intro total n h
    cases n with
    | mk ch v p =>
      match ch with
      | [] => simp [walkLoop, walkFuel]
      | [(c, child)] =>
        have hle : nsize child ≤ k := by
          simp only [nsize, lsize] at h
          omega
        simp only [walkLoop, walkFuel]
        rw [ih total child hle]
      | (c1, n1) :: (c2, n2) :: r => simp [walkLoop, walkFuel]

theorem allStrings_map_vstr (ss : List (List Char)) :
    allStrings (ss.map .vstr) = some ss := by
  induction ss with
  | nil => simp [allStrings]
  | cons s rest ih => simp [allStrings, asStr, ih]

theorem allStrings_none_of_mem (l : List PyVal) (x : PyVal) (hx : x ∈ l)
    (hbad : asStr x = none) : allStrings l = none := by
  induction l with
  | nil => simp at hx
  | cons y rest ih =>
    rcases List.mem_cons.mp hx with h | h
    · subst h
      simp [allStrings, hbad]
    · rw [allStrings]
      rw [ih h]
      cases asStr y <;> simp

theorem find_eq_fuel (t : Trie) (l : List PyVal) (ss : List (List Char))
    (k : Nat) (hl : allStrings l = some ss) (hne : l.isEmpty = false)
    (hk : nsize (ss.foldl insert_with_passcount t.root) ≤ k) :
    (find_longest_common_word t (.vlist l)).1 =
      walkFuel k ss.length (ss.foldl insert_with_passcount t.root) := by
  simp only [find_longest_common_word, hne, Bool.false_eq_true, if_false, hl]
  exact walkLoop_eq_walkFuel k ss.length _ hk

theorem insert_nil (n : TrieNode) : insert_with_passcount n [] = bumpPass n := by
  cases n
  rfl

theorem insert_cons_some (ch : List (Char × TrieNode)) (v : PyVal) (p : Nat)
    (c : Char) (rest : List Char) (child : TrieNode)
    (h : alookup ch c = some child) :
    insert_with_passcount (.mk ch v p) (c :: rest) =
      .mk (aset ch c (insert_with_passcount child rest)) v (p + 1) := by
  simp [insert_with_passcount, bumpPass, insertFrom, h]

theorem insert_cons_none (ch : List (Char × TrieNode)) (v : PyVal) (p : Nat)
    (c : Char) (rest : List Char) (h : alookup ch c = none) :
    insert_with_passcount (.mk ch v p) (c :: rest) =
      .mk (aset ch c (insert_with_passcount (.mk [] .vnone 0) rest)) v
        (p + 1) := by
  simp [insert_with_passcount, bumpPass, insertFrom, h]

theorem swh_append_cons (L : List (List Char)) (c : Char) (r0 : List Char) :
    stringsWithHead (L ++ [c :: r0]) c = stringsWithHead L c ++ [r0] := by
  simp [stringsWithHead, List.filterMap_append]

theorem swh_append_ne (L : List (List Char)) (c d : Char) (r0 : List Char)
    (h : d ≠ c) :
    stringsWithHead (L ++ [c :: r0]) d = stringsWithHead L d := by
  simp [stringsWithHead, List.filterMap_append, Ne.symm h]

theorem swh_append_nil (L : List (List Char)) (d : Char) :
    stringsWithHead (L ++ [[]]) d = stringsWithHead L d := by
  simp [stringsWithHead, List.filterMap_append]

theorem swh_nil_of_none (L : List (List Char)) (c : Char)
    (h : ∀ s ∈ L, ∀ r : List Char, s ≠ c :: r) : stringsWithHead L c = [] := by
  rw [stringsWithHead, List.filterMap_eq_nil]
  intro s hs
  cases s with
  | nil => rfl
  | cons c' r =>
    have : c' ≠ c := fun hc => h (c' :: r) hs r (by rw [hc])
    simp [this]

theorem mem_swh_of (L : List (List Char)) (c : Char) (r : List Char)
    (s : List Char) (hs : s ∈ L) (he : s = c :: r) :
    r ∈ stringsWithHead L c := by
  subst he
  exact List.mem_filterMap.mpr ⟨c :: r, hs, by simp⟩

theorem of_mem_swh (L : List (List Char)) (c : Char) (r : List Char)
    (hr : r ∈ stringsWithHead L c) : c :: r ∈ L := by
  rcases List.mem_filterMap.mp hr with ⟨s, hs, hf⟩
  cases s with
  | nil => simp at hf
  | cons c' r' =>
    by_cases hc : c' = c
    · subst hc
      simp at hf
      rw [← hf]
      exact hs
    · simp [hc] at hf

theorem swh_length_le (L : List (List Char)) (c : Char) :
    (stringsWithHead L c).length ≤ L.length :=
  List.length_filterMap_le _ _

theorem swh_length_eq_all (L : List (List Char)) (c : Char) :
    (stringsWithHead L c).length = L.length →
    ∀ s ∈ L, ∃ r, s = c :: r := by
  induction L with
  | nil => simp
  | cons s rest ih =>
    intro h s' hs'
    cases s with
    | nil =>
      exfalso
      have h1 : stringsWithHead ([] :: rest) c = stringsWithHead rest c := by
        simp [stringsWithHead]
      rw [h1] at h
      have := swh_length_le rest c
      simp at h
      omega
    | cons c' r =>
      by_cases hc : c' = c
      · subst hc
        have h1 : stringsWithHead ((c' :: r) :: rest) c' =
            r :: stringsWithHead rest c' := by
          simp [stringsWithHead]
        rw [h1] at h
        simp only [List.length_cons] at h
        rcases List.mem_cons.mp hs' with hs' | hs'
        · exact ⟨r, hs'⟩
        · exact ih (by omega) s' hs'
      · exfalso
        have h1 : stringsWithHead ((c' :: r) :: rest) c =
            stringsWithHead rest c := by
          simp [stringsWithHead, hc]
        rw [h1] at h
        have := swh_length_le rest c
        simp at h
        omega

theorem swh_length_eq_of_all (L : List (List Char)) (c : Char) :
    (∀ s ∈ L, ∃ r, s = c :: r) →
    (stringsWithHead L c).length = L.length := by
  induction L with
  | nil => simp [stringsWithHead]
  | cons s rest ih =>
    intro h
    obtain ⟨r, hr⟩ := h s (by simp)
    subst hr
    have h1 : stringsWithHead ((c :: r) :: rest) c =
        r :: stringsWithHead rest c := by
      simp [stringsWithHead]
    rw [h1]
    simp only [List.length_cons]
    rw [ih fun s hs => h s (List.mem_cons_of_mem _ hs)]

theorem alookup_isSome_iff {β : Type} (l : List (Char × β)) (d : Char) :
    (alookup l d).isSome = true ↔ d ∈ l.map Prod.fst := by
  induction l with
  | nil => simp [alookup]
  | cons q r ih =>
    obtain ⟨c', b'⟩ := q
    by_cases hc : c' = d
    · subst hc
      simp [alookup]
    · simp [alookup, hc, ih, Ne.symm hc]

theorem mem_keys_aset {β : Type} (l : List (Char × β)) (c d : Char) (b : β) :
    d ∈ (aset l c b).map Prod.fst ↔ d = c ∨ d ∈ l.map Prod.fst := by
  induction l with
  | nil => simp [aset]
  | cons q r ih =>
    obtain ⟨c', b'⟩ := q
    by_cases hc : c' = c
    · subst hc
      simp [aset]
    · simp [aset, hc, ih]
      tauto

theorem aset_keys_nodup {β : Type} (l : List (Char × β)) (c : Char) (b : β)
    (h : (l.map Prod.fst).Nodup) : ((aset l c b).map Prod.fst).Nodup := by
  induction l with
  | nil => simp [aset]
  | cons q r ih =>
    obtain ⟨c', b'⟩ := q
    simp only [List.map_cons, List.nodup_cons] at h
    by_cases hc : c' = c
    · subst hc
      simpa [aset] using h
    · simp only [aset, if_neg hc, List.map_cons, List.nodup_cons]
      refine ⟨?_, ih h.2⟩
      intro hmem
      rcases (mem_keys_aset r c c' b).mp hmem with hx | hx
      · exact hc hx
      · exact h.1 hx

theorem represents_nil : Represents (.mk [] .vnone 0) [] := by
  refine .intro [] .vnone 0 [] rfl (by simp) ?_ ?_
  · intro c
    simp [alookup]
  · intro c m hm
    simp [alookup] at hm

theorem insert_represents (s : List Char) :
    ∀ (n : TrieNode) (L : List (List Char)),
    Represents n L → Represents (insert_with_passcount n s) (L ++ [s]) := by
  induction s with
  | nil =>
    intro n L hrep
    cases hrep with
    | intro ch v p L hp hnd hkeys hchild =>
      rw [insert_nil]
      refine .intro ch v (p + 1) (L ++ [[]]) (by simp [hp]) hnd ?_ ?_
      · intro c
        rw [hkeys c]
        constructor
        · rintro ⟨s, hs, r, rfl⟩
          exact ⟨c :: r, List.mem_append.mpr (Or.inl hs), r, rfl⟩
        · rintro ⟨s, hs, r, rfl⟩
          rcases List.mem_append.mp hs with hs | hs
          · exact ⟨c :: r, hs, r, rfl⟩
          · simp at hs
      · intro c m hm
        rw [swh_append_nil]
        exact hchild c m hm
  | cons c rest ih =>
    intro n L hrep
    cases hrep with
    | intro ch v p L hp hnd hkeys hchild =>
      cases hc : alookup ch c with
      | some child =>
        rw [insert_cons_some ch v p c rest child hc]
        have hX := ih child (stringsWithHead L c) (hchild c child hc)
        refine .intro _ v (p + 1) (L ++ [c :: rest]) (by simp [hp])
          (aset_keys_nodup ch c _ hnd) ?_ ?_
        · intro d
          by_cases hd : d = c
          · subst hd
            rw [alookup_aset_self]
            simp only [Option.isSome_some, true_iff]
            exact ⟨d :: rest, by simp, rest, rfl⟩
          · rw [alookup_aset_ne ch c d _ hd, hkeys d]
            constructor
            · rintro ⟨s, hs, r, rfl⟩
              exact ⟨d :: r, by simp [hs], r, rfl⟩
            · rintro ⟨s, hs, r, rfl⟩
              rcases List.mem_append.mp hs with hs | hs
              · exact ⟨d :: r, hs, r, rfl⟩
              · exfalso
                simp only [List.mem_singleton] at hs
                injection hs with h1 h2
                exact hd h1
        · intro d m hm
          by_cases hd : d = c
          · subst hd
            rw [alookup_aset_self] at hm
            injection hm with hm
            rw [← hm, swh_append_cons]
            exact hX
          · rw [alookup_aset_ne ch c d _ hd] at hm
            rw [swh_append_ne L c d rest hd]
            exact hchild d m hm
      | none =>
        rw [insert_cons_none ch v p c rest hc]
        have hswh : stringsWithHead L c = [] := by
          apply swh_nil_of_none
          intro s hs r hr
          have : (alookup ch c).isSome = true :=
            (hkeys c).mpr ⟨s, hs, r, hr⟩
          rw [hc] at this
          simp at this
        have hX := ih (.mk [] .vnone 0) [] represents_nil
        refine .intro _ v (p + 1) (L ++ [c :: rest]) (by simp [hp])
          (aset_keys_nodup ch c _ hnd) ?_ ?_
        · intro d
          by_cases hd : d = c
          · subst hd
            rw [alookup_aset_self]
            simp only [Option.isSome_some, true_iff]
            exact ⟨d :: rest, by simp, rest, rfl⟩
          · rw [alookup_aset_ne ch c d _ hd, hkeys d]
            constructor
            · rintro ⟨s, hs, r, rfl⟩
              exact ⟨d :: r, by simp [hs], r, rfl⟩
            · rintro ⟨s, hs, r, rfl⟩
              rcases List.mem_append.mp hs with hs | hs
              · exact ⟨d :: r, hs, r, rfl⟩
              · exfalso
                simp only [List.mem_singleton] at hs
                injection hs with h1 h2
                exact hd h1
        · intro d m hm
          by_cases hd : d = c
          · subst hd
            rw [alookup_aset_self] at hm
            injection hm with hm
            rw [← hm, swh_append_cons, hswh]
            simpa using hX
          · rw [alookup_aset_ne ch c d _ hd] at hm
            rw [swh_append_ne L c d rest hd]
            exact hchild d m hm

theorem foldl_insert_represents (ss : List (List Char)) :
    ∀ (n : TrieNode) (L : List (List Char)), Represents n L →
    Represents (ss.foldl insert_with_passcount n) (L ++ ss) := by
  induction ss with
  | nil =>
    intro n L h
    simpa using h
  | cons s rest ih =>
    intro n L h
    have h2 := ih (insert_with_passcount n s) (L ++ [s])
      (insert_represents s n L h)
    simpa using h2

theorem keys_all_eq_singleton {β : Type} (l : List (Char × β)) (c : Char)
    (hnd : (l.map Prod.fst).Nodup) (hne : l ≠ [])
    (hall : ∀ d ∈ l.map Prod.fst, d = c) : ∃ b, l = [(c, b)] := by
  cases l with
  | nil => exact absurd rfl hne
  | cons q r =>
    obtain ⟨d, b⟩ := q
    have hd : d = c := hall d (by simp)
    subst hd
    cases r with
    | nil => exact ⟨b, rfl⟩
    | cons q2 r2 =>
      obtain ⟨d2, b2⟩ := q2
      have hd2 : d2 = d := hall d2 (by simp)
      subst hd2
      exfalso
      simp at hnd

theorem represents_passCount (n : TrieNode) (L : List (List Char))
    (h : Represents n L) : n.passCount = L.length := by
  cases h with
  | intro ch v p L hp hnd hkeys hchild => exact hp

theorem walk_common (k : Nat) : ∀ (n : TrieNode) (L : List (List Char)),
    nsize n ≤ k → Represents n L →
    ∀ s ∈ L, walkLoop L.length n <+: s := by
  induction k with
  | zero =>
    intro n L h _ s _
    have := nsize_pos n
    omega
  | succ k ih =>
    intro n L h hrep s hs
    cases hrep with
    | intro ch v p L hp hnd hkeys hchild =>
      match ch, hnd, hkeys, hchild, h with
      | [], _, _, _, _ =>
        simp only [walkLoop]
        exact List.nil_prefix
      | [(c, child)], hnd, hkeys, hchild, h =>
        by_cases hpc : child.passCount = L.length
        · simp only [walkLoop, if_pos hpc]
          have hrepc : Represents child (stringsWithHead L c) :=
            hchild c child (by simp [alookup])
          have hlen : (stringsWithHead L c).length = L.length := by
            rw [← represents_passCount child _ hrepc]
            exact hpc
          have hall := swh_length_eq_all L c hlen
          obtain ⟨r, hr⟩ := hall s hs
          subst hr
          have hrm : r ∈ stringsWithHead L c := mem_swh_of L c r _ hs rfl
          have hsz : nsize child ≤ k := by
            simp only [nsize, lsize] at h
            omega
          have hrec := ih child (stringsWithHead L c) hsz hrepc r hrm
          rw [hlen] at hrec
          exact List.cons_prefix_cons.mpr ⟨rfl, hrec⟩
        · simp only [walkLoop, if_neg hpc]
          exact List.nil_prefix
      | (c1, n1) :: (c2, n2) :: r2, _, _, _, _ =>
        simp only [walkLoop]
        exact List.nil_prefix

theorem walk_longest (q : List Char) : ∀ (n : TrieNode) (L : List (List Char)),
    L ≠ [] → Represents n L → (∀ s ∈ L, q <+: s) →
    q <+: walkLoop L.length n := by
  induction q with
  | nil =>
    intro n L _ _ _
    exact List.nil_prefix
  | cons c q' ih =>
    intro n L hLne hrep hcommon
    cases hrep with
    | intro ch v p L hp hnd hkeys hchild =>
      have hall : ∀ s ∈ L, ∃ r, s = c :: r ∧ q' <+: r := by
        intro s hs
        have hpre := hcommon s hs
        cases s with
        | nil =>
          exfalso
          have := List.eq_nil_of_prefix_nil hpre
          simp at this
        | cons c0 r =>
          rcases List.cons_prefix_cons.mp hpre with ⟨hc0, hq⟩
          exact ⟨r, by rw [hc0], hq⟩
      obtain ⟨s0, hs0⟩ := List.exists_mem_of_ne_nil L hLne
      obtain ⟨r0, hr0, _⟩ := hall s0 hs0
      have hcsome : (alookup ch c).isSome = true :=
        (hkeys c).mpr ⟨s0, hs0, r0, hr0⟩
      have hkeysall : ∀ d ∈ ch.map Prod.fst, d = c := by
        intro d hd
        obtain ⟨s, hs, r, hsr⟩ :=
          (hkeys d).mp ((alookup_isSome_iff ch d).mpr hd)
        obtain ⟨r2, hr2, _⟩ := hall s hs
        rw [hr2] at hsr
        injection hsr with h1 _
        exact h1.symm
      have hchne : ch ≠ [] := by
        intro hnil
        rw [hnil] at hcsome
        simp [alookup] at hcsome
      obtain ⟨child, hch⟩ := keys_all_eq_singleton ch c hnd hchne hkeysall
      subst hch
      have hrepc : Represents child (stringsWithHead L c) :=
        hchild c child (by simp [alookup])
      have hlen : (stringsWithHead L c).length = L.length :=
        swh_length_eq_of_all L c fun s hs => ⟨(hall s hs).choose,
          (hall s hs).choose_spec.1⟩
      have hpc : child.passCount = L.length := by
        rw [represents_passCount child _ hrepc]
        exact hlen
      simp only [walkLoop, if_pos hpc]
      have hswhne : stringsWithHead L c ≠ [] :=
        List.ne_nil_of_mem (mem_swh_of L c r0 s0 hs0 hr0)
      have hcommon' : ∀ r ∈ stringsWithHead L c, q' <+: r := by
        intro r hr
        obtain ⟨r2, hr2, hq⟩ := hall (c :: r) (of_mem_swh L c r hr)
        injection hr2 with _ h2
        rw [h2]
        exact hq
      have hrec := ih child (stringsWithHead L c) hswhne hrepc hcommon'
      rw [hlen] at hrec
      exact List.cons_prefix_cons.mpr ⟨rfl, hrec⟩

theorem find_fresh_eq_walk (ss : List (List Char)) (hne : ss ≠ []) :
    (find_longest_common_word Trie.empty (.vlist (ss.map .vstr))).1 =
      walkLoop ss.length (ss.foldl insert_with_passcount (.mk [] .vnone 0)) := by
  have he : (ss.map PyVal.vstr).isEmpty = false := by
    cases ss with
    | nil => exact absurd rfl hne
    | cons a b => simp
  simp only [find_longest_common_word, he, Bool.false_eq_true, if_false,
    allStrings_map_vstr]
  rfl

/-! ## Claims C5, C6 and C7 (src/longest_common_word.py) -/

/-- C5, confirmed: on a freshly constructed finder, for every non-empty
list of strings, `find_longest_common_word` returns the longest string that
is a prefix of every element — the result is a common prefix and every
common prefix is a prefix of the result (so the empty string comes back
exactly when no non-empty common prefix exists) — and, in particular, the
four examples of the specification evaluate to "fl", "inters", "" and
"a". -/
theorem find_longest_common_word_correct (ss : List (List Char))
    (hne : ss ≠ []) :
    ((∀ s ∈ ss,
        (find_longest_common_word Trie.empty
          (.vlist (ss.map .vstr))).1 <+: s) ∧
      (∀ q : List Char, (∀ s ∈ ss, q <+: s) →
        q <+: (find_longest_common_word Trie.empty
          (.vlist (ss.map .vstr))).1)) ∧
    (find_longest_common_word Trie.empty (.vlist
        [.vstr ['f','l','o','w','e','r'], .vstr ['f','l','o','w'],
          .vstr ['f','l','i','g','h','t']])).1 = ['f','l'] ∧
    (find_longest_common_word Trie.empty (.vlist
        [.vstr ['i','n','t','e','r','s','p','e','c','i','e','s'],
          .vstr ['i','n','t','e','r','s','t','e','l','l','a','r'],
          .vstr ['i','n','t','e','r','s','t','a','t','e']])).1 =
      ['i','n','t','e','r','s'] ∧
    (find_longest_common_word Trie.empty (.vlist
        [.vstr ['d','o','g'], .vstr ['r','a','c','e','c','a','r'],
          .vstr ['c','a','r']])).1 = [] ∧
    (find_longest_common_word Trie.empty (.vlist [.vstr ['a']])).1 =
      ['a'] := by
  have hrep : Represents (ss.foldl insert_with_passcount (.mk [] .vnone 0))
      ss := by
    have h := foldl_insert_represents ss (.mk [] .vnone 0) [] represents_nil
    simpa using h
  refine ⟨⟨?_, ?_⟩, ?_, ?_, ?_, ?_⟩
  · intro s hs
    rw [find_fresh_eq_walk ss hne]
    exact walk_common (nsize _) _ ss le_rfl hrep s hs
  · intro q hq
    rw [find_fresh_eq_walk ss hne]
    exact walk_longest q _ ss hne hrep hq
  · rw [find_eq_fuel Trie.empty
      [.vstr ['f','l','o','w','e','r'], .vstr ['f','l','o','w'],
        .vstr ['f','l','i','g','h','t']]
      [['f','l','o','w','e','r'], ['f','l','o','w'],
        ['f','l','i','g','h','t']] 40 rfl rfl (by decide)]
    rfl
  · rw [find_eq_fuel Trie.empty
      [.vstr ['i','n','t','e','r','s','p','e','c','i','e','s'],
        .vstr ['i','n','t','e','r','s','t','e','l','l','a','r'],
        .vstr ['i','n','t','e','r','s','t','a','t','e']]
      [['i','n','t','e','r','s','p','e','c','i','e','s'],
        ['i','n','t','e','r','s','t','e','l','l','a','r'],
        ['i','n','t','e','r','s','t','a','t','e']] 60 rfl rfl (by decide)]
    rfl
  · rw [find_eq_fuel Trie.empty
      [.vstr ['d','o','g'], .vstr ['r','a','c','e','c','a','r'],
        .vstr ['c','a','r']]
      [['d','o','g'], ['r','a','c','e','c','a','r'],
        ['c','a','r']] 40 rfl rfl (by decide)]
    rfl
  · rw [find_eq_fuel Trie.empty [.vstr ['a']] [['a']] 10 rfl rfl (by decide)]
    rfl

/-- C5, witness: the correctness theorem applied to the concrete singleton
list `["a"]`. -/
theorem find_longest_common_word_correct_witness :
    ([['a']] : List (List Char)) ≠ [] ∧
    (((∀ s ∈ ([['a']] : List (List Char)),
        (find_longest_common_word Trie.empty
          (.vlist ([['a']].map .vstr))).1 <+: s) ∧
      (∀ q : List Char, (∀ s ∈ ([['a']] : List (List Char)), q <+: s) →
        q <+: (find_longest_common_word Trie.empty
          (.vlist ([['a']].map .vstr))).1)) ∧
    (find_longest_common_word Trie.empty (.vlist
        [.vstr ['f','l','o','w','e','r'], .vstr ['f','l','o','w'],
          .vstr ['f','l','i','g','h','t']])).1 = ['f','l'] ∧
    (find_longest_common_word Trie.empty (.vlist
        [.vstr ['i','n','t','e','r','s','p','e','c','i','e','s'],
          .vstr ['i','n','t','e','r','s','t','e','l','l','a','r'],
          .vstr ['i','n','t','e','r','s','t','a','t','e']])).1 =
      ['i','n','t','e','r','s'] ∧
    (find_longest_common_word Trie.empty (.vlist
        [.vstr ['d','o','g'], .vstr ['r','a','c','e','c','a','r'],
          .vstr ['c','a','r']])).1 = [] ∧
    (find_longest_common_word Trie.empty (.vlist [.vstr ['a']])).1 =
      ['a']) :=
  ⟨by decide, find_longest_common_word_correct [['a']] (by decide)⟩

/-! ## Claims C6 and C7 (src/longest_common_word.py) -/

/-- C6, counterexample: `find_longest_common_word` inserts into the
instance's existing trie, not a fresh one.  On a fresh finder,
`find_longest_common_word(["a"])` returns `"a"`; calling it again with the
very same list on the same instance returns `""`, because the stale pass
counts (now 2 on the "a" node) no longer match `len(strings) = 1`.  Two
calls with the same list thus return different prefixes. -/
theorem find_state_counterexample :
    (find_longest_common_word Trie.empty (.vlist [.vstr ['a']])).1 =
      ['a'] ∧
    (find_longest_common_word
        (find_longest_common_word Trie.empty (.vlist [.vstr ['a']])).2
        (.vlist [.vstr ['a']])).1 = [] := by
  constructor
  · rw [find_eq_fuel Trie.empty [.vstr ['a']] [['a']] 5 rfl rfl (by decide)]
    rfl
  · rw [find_eq_fuel (find_longest_common_word Trie.empty
        (.vlist [.vstr ['a']])).2 [.vstr ['a']] [['a']] 5 rfl rfl (by decide)]
    rfl

/-- C6, amended: the result of `find_longest_common_word` depends on the
finder's trie contents as well as on the strings argument (prior operations
leave pass counts that change later answers); it depends ONLY on the strings
argument when the instances' tries agree — in particular on freshly
constructed finders. -/
theorem find_depends_on_root_and_strings (t1 t2 : Trie) (v : PyVal)
    (h : t1.root = t2.root) :
    (find_longest_common_word t1 v).1 = (find_longest_common_word t2 v).1 := by
  cases v with
  | vlist l =>
    by_cases he : l.isEmpty
    · simp [find_longest_common_word, he]
    · simp only [Bool.not_eq_true] at he
      simp only [find_longest_common_word, he, Bool.false_eq_true, if_false]
      cases hall : allStrings l with
      | none => simp
      | some ss => simp [h]
  | vnone => simp [find_longest_common_word]
  | vstr s => simp [find_longest_common_word]
  | vint m => simp [find_longest_common_word]
  | vbool b => simp [find_longest_common_word]

/-- C6, witness for the amended theorem: two finders with equal tries (both
fresh) produce the same prefix for the same list. -/
theorem find_depends_on_root_witness :
    (Trie.empty : Trie).root = (Trie.empty : Trie).root ∧
    (find_longest_common_word Trie.empty (.vlist [.vstr ['a']])).1 =
      (find_longest_common_word Trie.empty (.vlist [.vstr ['a']])).1 :=
  ⟨rfl, find_depends_on_root_and_strings Trie.empty Trie.empty
    (.vlist [.vstr ['a']]) rfl⟩

/-- C7, confirmed: the embedding of `find_longest_common_word` is a total
function — no input raises — and whenever the argument is not a list, is an
empty list, or contains a non-string element, it returns the empty string
and leaves the instance untouched. -/
theorem find_invalid_returns_empty (t : Trie) (v : PyVal)
    (h : (∀ l : List PyVal, v ≠ .vlist l) ∨ v = .vlist [] ∨
      (∃ l, v = .vlist l ∧ ∃ x ∈ l, asStr x = none)) :
    (find_longest_common_word t v).1 = [] ∧
    (find_longest_common_word t v).2 = t := by
  rcases h with h | h | ⟨l, hl, x, hx, hbad⟩
  · cases v with
    | vlist l => exact absurd rfl (h l)
    | vnone => simp [find_longest_common_word]
    | vstr s => simp [find_longest_common_word]
    | vint m => simp [find_longest_common_word]
    | vbool b => simp [find_longest_common_word]
  · subst h
    simp [find_longest_common_word]
  · subst hl
    have hne : l.isEmpty = false := by
      cases l with
      | nil => simp at hx
      | cons y r => simp
    simp [find_longest_common_word, hne, allStrings_none_of_mem l x hx hbad]

/-- C7, witness: an integer argument yields the empty string and leaves the
finder unchanged. -/
theorem find_invalid_witness :
    (find_longest_common_word Trie.empty (.vint 3)).1 = [] ∧
    (find_longest_common_word Trie.empty (.vint 3)).2 = Trie.empty :=
  find_invalid_returns_empty Trie.empty (.vint 3)
    (Or.inl fun l h => PyVal.noConfusion h)

end LCW

end HW04
